import Mathlib

/-!
Shallow embedding of the heading / dial-projection core of the compass-web
repository (src/unnamed/part_000 and src/circle_divided_into_64_parts_canvas.jsx).

Numbers: the source computes with JS doubles; the embedding uses exact
rationals.  JS `x % m` is the remainder whose sign follows the dividend,
i.e. `x - m * trunc (x / m)`; it is modelled by `jsMod` below.

Angles: the projector in the source works in radians, where every angle is
a rational multiple of `π / 180` and the wrapping modulus is `2π`.  Dividing
everything by `π / 180` (an order- and absolute-value-preserving rescaling)
turns those radians into rational degrees and `2π` into `360`; the
embedding therefore states the whole projector in degrees.
-/

namespace Compass

/-- Truncation toward zero, as JS `Math.trunc` / the rounding used by
the JS `%` operator (for a negative argument, truncation toward zero is
`-⌊-q⌋`, i.e. the ceiling). -/
def ratTrunc (q : ℚ) : ℤ :=
  if 0 ≤ q then ⌊q⌋ else -⌊-q⌋

/-- JS remainder `x % m` for finite operands: sign follows the dividend. -/
def jsMod (x m : ℚ) : ℚ :=
  x - m * (ratTrunc (x / m) : ℚ)

/-- Core of `normalize` (part_000 lines 113-118) on a finite number:
`let d = deg % 360; if (d < 0) d += 360; return d`. -/
def normalizeFin (deg : ℚ) : ℚ :=
  let d := jsMod deg 360
  if d < 0 then d + 360 else d

/-- A JS value as seen by the sensor plumbing: either not a number at all
(`undefined`, `null`, a string, ...), or one of the three special doubles,
or a finite number (modelled exactly as a rational). -/
inductive JSVal where
  | undef
  | nan
  | posInf
  | negInf
  | num (q : ℚ)
deriving DecidableEq

/-- `typeof v === "number" && Number.isFinite(v)`. -/
def JSVal.isFiniteNumber : JSVal → Bool
  | .num _ => true
  | _ => false

/-- JS `v % 360` on a number value: finite values use `jsMod`; `NaN` and
`±Infinity` give `NaN`.  (`undef` is never fed to `%` by `normalize`, which
returns first; we map it to `NaN` like the JS coercion would.) -/
def jsRem360 : JSVal → JSVal
  | .num q => .num (jsMod q 360)
  | _ => .nan

/-- JS `v < 0` on a number value: false for `NaN`. -/
def jsLtZero : JSVal → Bool
  | .num q => decide (q < 0)
  | .negInf => true
  | _ => false

/-- JS `v + 360` on a number value. -/
def jsAdd360 : JSVal → JSVal
  | .num q => .num (q + 360)
  | .posInf => .posInf
  | .negInf => .negInf
  | _ => .nan

/-- `normalize` (part_000 lines 113-118, jsx lines 331-336) on an arbitrary
JS value: `null` (here `Option.none`) when the input is not a number or is
`NaN`; otherwise `d = deg % 360; if (d < 0) d += 360; return d`.  Note the
guard tests `Number.isNaN`, not `Number.isFinite`, so `±Infinity` passes the
guard and flows through `%`. -/
def normalize (v : JSVal) : Option JSVal :=
  match v with
  | .undef => none
  | .nan => none
  | w =>
    let d := jsRem360 w
    some (if jsLtZero d then jsAdd360 d else d)

/-- `shortestAngleDelta` (part_000 lines 249-254, jsx lines 467-472). -/
def shortestAngleDelta (a b : ℚ) : ℚ :=
  let diff := jsMod (b - a) 360
  let diff2 := if diff < -180 then diff + 360 else diff
  if diff2 > 180 then diff2 - 360 else diff2

/-- `wrapPi2` (part_000 lines 548-553), rescaled from radians to degrees:
wrap into `[-180, 180]` by one conditional correction on each side. -/
def wrapPi2 (a : ℚ) : ℚ :=
  let x := jsMod a 360
  let x2 := if x < -180 then x + 360 else x
  if x2 > 180 then x2 - 360 else x2

/-- `angDist` (part_000 line 554): wrapped absolute angular distance. -/
def angDist (a b : ℚ) : ℚ :=
  |wrapPi2 (a - b)|

/-- The fixed forward (top) screen angle, `-π/2`, in degrees. -/
def topAngle : ℚ := -90

/-- Width of one of the 64 slices, `2π/64` in degrees. -/
def sliceDeg : ℚ := 360 / 64

/-- Width of a big sector, `slice * (SEGMENTS / 8)` in degrees. -/
def bigSliceDeg : ℚ := sliceDeg * (64 / 8)

/-- `startAngle = -π/2 + dialRot` with `dialRot = -heading`, in degrees. -/
def startAngleDeg (heading : ℚ) : ℚ := -90 + (-heading)

/-- The fixed label sequence `[6, 1, 2, 3, 4, 7, 5, 8]`. -/
def seq : List ℕ := [6, 1, 2, 3, 4, 7, 5, 8]

/-- Big-sector labels in dial order (same array as `seq` in the source). -/
def bigLabels : List ℕ := [6, 1, 2, 3, 4, 7, 5, 8]

/-- One step of the `best`-so-far scan used by the source loops
(`if (d < best) { best = d; idx = i; }`).  `none` plays the role of the
initial `best = Infinity`. -/
def minStep (f : ℕ → ℚ) (acc : ℕ × Option ℚ) (i : ℕ) : ℕ × Option ℚ :=
  match acc.2 with
  | none => (i, some (f i))
  | some bd => if f i < bd then (i, some (f i)) else acc

/-- The source loop `for (i = 0; i < 8; i++) if (d < best) ...` with
`best` initialised to `Infinity` and the index initialised to `0`. -/
def loopMinIndex (f : ℕ → ℚ) : ℕ :=
  ((List.range 8).foldl (minStep f) (0, none)).1

/-- `currentBigIndex` (part_000 lines 557-566): the big sector whose
midpoint is angularly nearest the fixed top angle. -/
def currentBigIndex (h : ℚ) : ℕ :=
  loopMinIndex (fun b =>
    angDist (startAngleDeg h + b * bigSliceDeg + bigSliceDeg / 2) topAngle)

/-- `currentBigLabel = bigLabels[currentBigIndex]`. -/
def currentBigLabel (h : ℚ) : ℕ :=
  bigLabels.getD (currentBigIndex h) 0

/-- `currentSmallIndex` (part_000 lines 569-578): the sub-slice of the
chosen big sector whose midpoint is nearest the top angle. -/
def currentSmallIndex (h : ℚ) : ℕ :=
  loopMinIndex (fun j =>
    angDist (startAngleDeg h + (currentBigIndex h) * bigSliceDeg
      + j * sliceDeg + sliceDeg / 2) topAngle)

/-- `currentSmallLabel = seq[(seq.indexOf(currentBigLabel) + currentSmallIndex) % 8]`. -/
def currentSmallLabel (h : ℚ) : ℕ :=
  seq.getD ((seq.indexOf (currentBigLabel h) + currentSmallIndex h) % 8) 0

/-- `bigLabelForDegree` (part_000 lines 358-368): interval-bucket lookup;
`d = ((deg % 360) + 360) % 360` then a chain of `< k` tests. -/
def bigLabelForDegree (deg : ℚ) : ℕ :=
  let d := jsMod (jsMod deg 360 + 360) 360
  if d < 45 then 6
  else if d < 90 then 1
  else if d < 135 then 2
  else if d < 180 then 3
  else if d < 225 then 4
  else if d < 270 then 7
  else if d < 315 then 5
  else 8

/-- `smallLabelForDegree` (part_000 lines 372-382): bucket variant of the
sub-label lookup; `Math.floor` is `Int.floor` and the resulting indices are
nonnegative, so `Int.toNat` is exact. -/
def smallLabelForDegree (deg : ℚ) : ℕ :=
  let d := jsMod (jsMod deg 360 + 360) 360
  let bigIndex : ℤ := ⌊d / 45⌋
  let within := d - (bigIndex : ℚ) * 45
  let subIndex : ℤ := min 7 ⌊within / (45 / 8)⌋
  let startLabel := seq.getD bigIndex.toNat 0
  let startIdx := seq.indexOf startLabel
  seq.getD ((startIdx + subIndex.toNat) % 8) 0

/-- The 8 sub-slice labels drawn inside big sector `b`, in clockwise
sub-slice order (the drawing loop, part_000 lines 528-545):
`label = seq[(seq.indexOf(seq[b]) + j) % 8]` for `j = 0..7`. -/
def drawnSubLabels (b : ℕ) : List ℕ :=
  (List.range 8).map (fun j => seq.getD ((seq.indexOf (seq.getD b 0) + j) % 8) 0)

/-- A device-orientation event as consumed by the sensor handlers. -/
structure OrientationEvent where
  webkitCompassHeading : JSVal
  alpha : JSVal
  beta : JSVal
  gamma : JSVal

/-- `computeHeadingFromEuler` (part_000 lines 121-152): `null` unless
`alpha`, `beta`, `gamma` are all finite numbers.  The `atan2`-based tilt
compensation always produces a finite number in JS; it is abstracted here
as an arbitrary total function `trig` of the three finite angles, which is
all the claims about the handlers depend on. -/
def computeHeadingFromEuler (trig : ℚ → ℚ → ℚ → ℚ) (ev : OrientationEvent) : Option ℚ :=
  match ev.alpha, ev.beta, ev.gamma with
  | .num a, .num b, .num g => some (trig a b g)
  | _, _, _ => none

/-- The two shared mutable scalars of the sensor path: the target heading
and the `preferWebkitRef` flag. -/
structure SensorState where
  target : ℚ
  prefer : Bool
deriving DecidableEq

/-- The final value of the nullable local `hdg` in the `startSensors`
handler of part_000 (lines 156-177): on iOS only a finite
`webkitCompassHeading` is accepted; otherwise webkit heading first, then
the Euler fallback `compensated !== null ? compensated : 360 - alpha`. -/
def sensorCandidate (trig : ℚ → ℚ → ℚ → ℚ) (ios : Bool)
    (ev : OrientationEvent) : Option ℚ :=
  if ios then
    match ev.webkitCompassHeading with
    | .num q => some q
    | _ => none
  else
    match ev.webkitCompassHeading with
    | .num q => some q
    | _ =>
      match ev.alpha with
      | .num a =>
        some (match computeHeadingFromEuler trig ev with
          | some c => c
          | none => 360 - a)
      | _ => none

/-- The value of `preferWebkitRef` after the part_000 handler: set on iOS
when a finite webkit heading arrives, otherwise untouched. -/
def sensorPreferFlag (ios : Bool) (ev : OrientationEvent) (old : Bool) : Bool :=
  if ios then
    match ev.webkitCompassHeading with
    | .num _ => true
    | _ => old
  else old

/-- The `startSensors` handler of part_000 (lines 156-177), as a state
transformer on `(targetHeadingRef, preferWebkitRef)`: the candidate `hdg`
is normalized and written exactly when it is non-null (`normalize(null)`
is `null`, and `normalize` of a finite number is never `null`). -/
def sensorHandler (trig : ℚ → ℚ → ℚ → ℚ) (ios : Bool) (ev : OrientationEvent)
    (s : SensorState) : SensorState :=
  { target :=
      match sensorCandidate trig ios ev with
      | some q => normalizeFin q
      | none => s.target,
    prefer := sensorPreferFlag ios ev s.prefer }

/-- The final value of `hdg` in the jsx-variant handler (lines 1162-1175):
a finite `webkitCompassHeading` is used directly; the Euler fallback runs
only while `preferWebkitRef` is still false. -/
def sensorPreferCandidate (trig : ℚ → ℚ → ℚ → ℚ) (ev : OrientationEvent)
    (prefer : Bool) : Option ℚ :=
  match ev.webkitCompassHeading with
  | .num q => some q
  | _ =>
    if prefer then none
    else
      match ev.alpha with
      | .num a =>
        some (match computeHeadingFromEuler trig ev with
          | some c => c
          | none => 360 - a)
      | _ => none

/-- The `startSensors` handler of the jsx variant (lines 1162-1175): the
candidate is normalized and written exactly when non-null, and
`preferWebkitRef` latches when a finite webkit heading is seen. -/
def sensorHandlerPrefer (trig : ℚ → ℚ → ℚ → ℚ) (ev : OrientationEvent)
    (s : SensorState) : SensorState :=
  { target :=
      match sensorPreferCandidate trig ev s.prefer with
      | some q => normalizeFin q
      | none => s.target,
    prefer :=
      match ev.webkitCompassHeading with
      | .num _ => true
      | _ => s.prefer }

/-- One smoothing tick, `animate` (part_000 lines 257-268): on finite
inputs `normalize` never yields `null`, so the `?? 0` fallback and the
`next !== null` guards reduce to the arithmetic below; smoothing gain
`0.15`, snap threshold `0.05`. -/
def animateTick (current targetStored offsetDeg : ℚ) : ℚ :=
  let target := normalizeFin (targetStored + offsetDeg)
  let diff := shortestAngleDelta current target
  let next := normalizeFin (current + diff * (15 / 100))
  if 5 / 100 < |diff| then next
  else if 0 < |diff| then target
  else current

/-- Displayed-heading sequence for the convergence scenario: start at `0`,
constant stored target `170`, zero calibration offset. -/
def smoothSeq : ℕ → ℚ
  | 0 => 0
  | n + 1 => animateTick (smoothSeq n) 170 0

/-- Initial value of `targetHeadingRef` (`useRef(0)`). -/
def initialTarget : ℚ := 0

/-- Initial value of the displayed heading (`useState(0)`). -/
def initialDisplayed : ℚ := 0

/-! ### Arithmetic facts about `jsMod` and `normalizeFin` -/

theorem sub_ratTrunc_lt_one (q : ℚ) : q - (ratTrunc q : ℚ) < 1 := by
  unfold ratTrunc
  split_ifs with h
  · linarith [Int.lt_floor_add_one q]
  · push_cast
    linarith [Int.floor_le (-q)]

theorem neg_one_lt_sub_ratTrunc (q : ℚ) : -1 < q - (ratTrunc q : ℚ) := by
  unfold ratTrunc
  split_ifs with h
  · linarith [Int.floor_le q]
  · push_cast
    linarith [Int.lt_floor_add_one (-q)]

theorem ratTrunc_eq_zero (q : ℚ) (h1 : -1 < q) (h2 : q < 1) : ratTrunc q = 0 := by
  unfold ratTrunc
  split_ifs with h
  · exact Int.floor_eq_zero_iff.mpr ⟨h, h2⟩
  · have : ⌊-q⌋ = 0 := Int.floor_eq_zero_iff.mpr ⟨by linarith, by linarith⟩
    simp [this]

theorem jsMod360_lt (x : ℚ) : jsMod x 360 < 360 := by
  have h := sub_ratTrunc_lt_one (x / 360)
  unfold jsMod
  linarith

theorem neg_lt_jsMod360 (x : ℚ) : -360 < jsMod x 360 := by
  have h := neg_one_lt_sub_ratTrunc (x / 360)
  unfold jsMod
  linarith

theorem jsMod360_exists_int (x : ℚ) : ∃ k : ℤ, jsMod x 360 = x - 360 * k :=
  ⟨ratTrunc (x / 360), rfl⟩

theorem jsMod360_eq_self (x : ℚ) (h1 : -360 < x) (h2 : x < 360) :
    jsMod x 360 = x := by
  unfold jsMod
  have : ratTrunc (x / 360) = 0 := ratTrunc_eq_zero _ (by linarith) (by linarith)
  simp [this]

theorem jsMod360_shift (x : ℚ) (h1 : 0 ≤ x) (h2 : x < 360) :
    jsMod (x + 360) 360 = x := by
  unfold jsMod
  have : ratTrunc ((x + 360) / 360) = 1 := by
    unfold ratTrunc
    rw [if_pos (by positivity)]
    rw [Int.floor_eq_iff]
    constructor
    · push_cast
      linarith
    · push_cast
      linarith
  rw [this]
  push_cast
  ring

theorem normalizeFin_nonneg (x : ℚ) : 0 ≤ normalizeFin x := by
  unfold normalizeFin
  dsimp only
  have := neg_lt_jsMod360 x
  split_ifs with h <;> linarith

theorem normalizeFin_lt (x : ℚ) : normalizeFin x < 360 := by
  unfold normalizeFin
  dsimp only
  have := jsMod360_lt x
  split_ifs with h <;> linarith

theorem normalizeFin_exists_int (x : ℚ) : ∃ k : ℤ, normalizeFin x = x + 360 * k := by
  obtain ⟨k, hk⟩ := jsMod360_exists_int x
  unfold normalizeFin
  dsimp only
  split_ifs with h
  · exact ⟨1 - k, by rw [hk]; push_cast; ring⟩
  · exact ⟨-k, by rw [hk]; push_cast; ring⟩

theorem normalizeFin_eq_self (x : ℚ) (h1 : 0 ≤ x) (h2 : x < 360) :
    normalizeFin x = x := by
  unfold normalizeFin
  dsimp only
  rw [jsMod360_eq_self x (by linarith) h2]
  rw [if_neg (by linarith)]

theorem int_mul_360_eq_zero (z : ℤ) (h : |(360 : ℚ) * z| < 360) : z = 0 := by
  rw [abs_lt] at h
  have h1 : (-1 : ℚ) < z := by linarith
  have h2 : (z : ℚ) < 1 := by linarith
  exact_mod_cast by
    have h1' : (-1 : ℤ) < z := by exact_mod_cast h1
    have h2' : z < (1 : ℤ) := by exact_mod_cast h2
    omega

theorem normalizeFin_congr (x y : ℚ) (k : ℤ) (h : x = y + 360 * k) :
    normalizeFin x = normalizeFin y := by
  obtain ⟨a, ha⟩ := normalizeFin_exists_int x
  obtain ⟨b, hb⟩ := normalizeFin_exists_int y
  have hz : normalizeFin x - normalizeFin y = 360 * ((k + a - b : ℤ) : ℚ) := by
    rw [ha, hb, h]
    push_cast
    ring
  have hbnd : |normalizeFin x - normalizeFin y| < 360 := by
    rw [abs_lt]
    constructor
    · linarith [normalizeFin_nonneg x, normalizeFin_lt y]
    · linarith [normalizeFin_lt x, normalizeFin_nonneg y]
  have : (k + a - b : ℤ) = 0 := int_mul_360_eq_zero _ (by rw [← hz]; exact hbnd)
  have := hz
  rw [‹(k + a - b : ℤ) = 0›] at this
  push_cast at this
  linarith

theorem doubleMod_eq_self (h : ℚ) (h1 : 0 ≤ h) (h2 : h < 360) :
    jsMod (jsMod h 360 + 360) 360 = h := by
  rw [jsMod360_eq_self h (by linarith) h2, jsMod360_shift h h1 h2]

/-! ### Facts about `shortestAngleDelta` -/

theorem shortestAngleDelta_mem (a b : ℚ) :
    -180 ≤ shortestAngleDelta a b ∧ shortestAngleDelta a b ≤ 180 := by
  unfold shortestAngleDelta
  dsimp only
  have hl := neg_lt_jsMod360 (b - a)
  have hr := jsMod360_lt (b - a)
  split_ifs with h1 h2 h3 <;> constructor <;> linarith

theorem shortestAngleDelta_exists_int (a b : ℚ) :
    ∃ k : ℤ, shortestAngleDelta a b = (b - a) + 360 * k := by
  obtain ⟨k, hk⟩ := jsMod360_exists_int (b - a)
  unfold shortestAngleDelta
  dsimp only
  split_ifs with h1 h2 h3
  · exact ⟨-k, by rw [hk]; push_cast; ring⟩
  · exact ⟨-k + 1, by rw [hk]; push_cast; ring⟩
  · exact ⟨-k - 1, by rw [hk]; push_cast; ring⟩
  · exact ⟨-k, by rw [hk]; push_cast; ring⟩

theorem shortestAngleDelta_eq_of (a b : ℚ) (h1 : 0 ≤ b - a) (h2 : b - a ≤ 180) :
    shortestAngleDelta a b = b - a := by
  unfold shortestAngleDelta
  dsimp only
  rw [jsMod360_eq_self (b - a) (by linarith) (by linarith)]
  rw [if_neg (show ¬(b - a < -180) by linarith)]
  rw [if_neg (show ¬(b - a > 180) by linarith)]

/-! ### Facts about `wrapPi2` and wrapped distances -/

theorem wrapPi2_eq_self (x : ℚ) (h1 : -180 ≤ x) (h2 : x ≤ 180) : wrapPi2 x = x := by
  unfold wrapPi2
  dsimp only
  rw [jsMod360_eq_self x (by linarith) (by linarith)]
  rw [if_neg (show ¬(x < -180) by linarith)]
  rw [if_neg (show ¬(x > 180) by linarith)]

theorem wrapPi2_add360 (x : ℚ) (h1 : -360 < x) (h2 : x < -180) : wrapPi2 x = x + 360 := by
  unfold wrapPi2
  dsimp only
  rw [jsMod360_eq_self x h1 (by linarith)]
  rw [if_pos (show x < -180 by linarith)]
  rw [if_neg (show ¬(x + 360 > 180) by linarith)]

theorem wrapPi2_sub360 (x : ℚ) (h1 : 180 < x) (h2 : x < 360) : wrapPi2 x = x - 360 := by
  unfold wrapPi2
  dsimp only
  rw [jsMod360_eq_self x (by linarith) h2]
  rw [if_neg (show ¬(x < -180) by linarith)]
  rw [if_pos (show x > 180 by linarith)]

theorem abs_wrapPi2_ge_self_pos (x L : ℚ) (h1 : -180 ≤ x) (h2 : x ≤ 180)
    (h3 : L ≤ x) : L ≤ |wrapPi2 x| := by
  rw [wrapPi2_eq_self x h1 h2]
  exact le_trans h3 (le_abs_self x)

theorem abs_wrapPi2_ge_self_neg (x L : ℚ) (h1 : -180 ≤ x) (h2 : x ≤ 180)
    (h3 : x ≤ -L) : L ≤ |wrapPi2 x| := by
  rw [wrapPi2_eq_self x h1 h2]
  calc L ≤ -x := by linarith
  _ ≤ |x| := neg_le_abs x

theorem abs_wrapPi2_ge_add (x L : ℚ) (h1 : -360 < x) (h2 : x < -180)
    (h3 : L ≤ x + 360) : L ≤ |wrapPi2 x| := by
  rw [wrapPi2_add360 x h1 h2]
  exact le_trans h3 (le_abs_self _)

theorem abs_wrapPi2_ge_sub (x L : ℚ) (h1 : 180 < x) (h2 : x < 360)
    (h3 : x - 360 ≤ -L) : L ≤ |wrapPi2 x| := by
  rw [wrapPi2_sub360 x h1 h2]
  calc L ≤ -(x - 360) := by linarith
  _ ≤ |x - 360| := neg_le_abs _

/-- Separation of big-sector midpoints: a midpoint `m` big sectors away
from the nearest one (`m ≠ 0`) is at wrapped distance at least `22.5°`,
while the nearest one is closer than `22.5°`. -/
theorem sep_big (m : ℤ) (hm1 : -7 ≤ m) (hm2 : m ≤ 7) (hm0 : m ≠ 0) (c : ℚ)
    (hc : |c| < 45 / 2) : 45 / 2 ≤ |wrapPi2 (45 * m + c)| := by
  obtain ⟨hc1, hc2⟩ := abs_lt.mp hc
  interval_cases m
  · exact abs_wrapPi2_ge_add _ _ (by push_cast; linarith) (by push_cast; linarith)
      (by push_cast; linarith)
  · exact abs_wrapPi2_ge_add _ _ (by push_cast; linarith) (by push_cast; linarith)
      (by push_cast; linarith)
  · exact abs_wrapPi2_ge_add _ _ (by push_cast; linarith) (by push_cast; linarith)
      (by push_cast; linarith)
  · rcases lt_or_le c 0 with h | h
    · exact abs_wrapPi2_ge_add _ _ (by push_cast; linarith) (by push_cast; linarith)
        (by push_cast; linarith)
    · exact abs_wrapPi2_ge_self_neg _ _ (by push_cast; linarith) (by push_cast; linarith)
        (by push_cast; linarith)
  · exact abs_wrapPi2_ge_self_neg _ _ (by push_cast; linarith) (by push_cast; linarith)
      (by push_cast; linarith)
  · exact abs_wrapPi2_ge_self_neg _ _ (by push_cast; linarith) (by push_cast; linarith)
      (by push_cast; linarith)
  · exact abs_wrapPi2_ge_self_neg _ _ (by push_cast; linarith) (by push_cast; linarith)
      (by push_cast; linarith)
  · exact absurd rfl hm0
  · exact abs_wrapPi2_ge_self_pos _ _ (by push_cast; linarith) (by push_cast; linarith)
      (by push_cast; linarith)
  · exact abs_wrapPi2_ge_self_pos _ _ (by push_cast; linarith) (by push_cast; linarith)
      (by push_cast; linarith)
  · exact abs_wrapPi2_ge_self_pos _ _ (by push_cast; linarith) (by push_cast; linarith)
      (by push_cast; linarith)
  · rcases le_or_lt c 0 with h | h
    · exact abs_wrapPi2_ge_self_pos _ _ (by push_cast; linarith) (by push_cast; linarith)
        (by push_cast; linarith)
    · exact abs_wrapPi2_ge_sub _ _ (by push_cast; linarith) (by push_cast; linarith)
        (by push_cast; linarith)
  · exact abs_wrapPi2_ge_sub _ _ (by push_cast; linarith) (by push_cast; linarith)
      (by push_cast; linarith)
  · exact abs_wrapPi2_ge_sub _ _ (by push_cast; linarith) (by push_cast; linarith)
      (by push_cast; linarith)
  · exact abs_wrapPi2_ge_sub _ _ (by push_cast; linarith) (by push_cast; linarith)
      (by push_cast; linarith)

/-- Separation of sub-slice midpoints inside one big sector: all arguments
stay within `(-180, 180)`, so no wrapping occurs and the bound is direct. -/
theorem sep_small (m : ℤ) (hm1 : -7 ≤ m) (hm2 : m ≤ 7) (hm0 : m ≠ 0) (c : ℚ)
    (hc : |c| < 45 / 16) : 45 / 16 ≤ |wrapPi2 (45 / 8 * m + c)| := by
  obtain ⟨hc1, hc2⟩ := abs_lt.mp hc
  rcases lt_or_gt_of_ne hm0 with h | h
  · have hm0' : m ≤ -1 := by omega
    have hm' : (m : ℚ) ≤ -1 := by exact_mod_cast hm0'
    have hm'' : (-7 : ℚ) ≤ m := by exact_mod_cast hm1
    exact abs_wrapPi2_ge_self_neg _ _ (by linarith) (by linarith) (by linarith)
  · have hm' : (1 : ℚ) ≤ m := by exact_mod_cast h
    have hm'' : (m : ℚ) ≤ 7 := by exact_mod_cast hm2
    exact abs_wrapPi2_ge_self_pos _ _ (by linarith) (by linarith) (by linarith)

/-! ### The argmin scan of the source loops -/

theorem minStep_some (f : ℕ → ℚ) (b i : ℕ) (v : ℚ) :
    minStep f (b, some v) i = if f i < v then (i, some (f i)) else (b, some v) := rfl

theorem minStep_none (f : ℕ → ℚ) (b i : ℕ) :
    minStep f (b, none) i = (i, some (f i)) := rfl

theorem foldl_minStep_stable (f : ℕ → ℚ) (l : List ℕ) (b : ℕ)
    (hb : ∀ i ∈ l, f b < f i) :
    l.foldl (minStep f) (b, some (f b)) = (b, some (f b)) := by
  induction l with
  | nil => rfl
  | cons i l ih =>
    have hbi := hb i (List.mem_cons_self i l)
    rw [List.foldl_cons, minStep_some, if_neg (lt_asymm hbi)]
    exact ih (fun j hj => hb j (List.mem_cons_of_mem _ hj))

theorem foldl_minStep_find (f : ℕ → ℚ) (l : List ℕ) : ∀ b : ℕ, b ∈ l → b ∉ l.tail ∨ l.Nodup →
    (∀ i ∈ l, i ≠ b → f b < f i) → ∀ j : ℕ, f b < f j →
    l.foldl (minStep f) (j, some (f j)) = (b, some (f b)) := by
  induction l with
  | nil => intro b hb; exact absurd hb (List.not_mem_nil b)
  | cons a l ih =>
    intro b hb hnd hmin j hj
    rw [List.foldl_cons, minStep_some]
    rcases eq_or_ne a b with rfl | hab
    · rw [if_pos hj]
      refine foldl_minStep_stable f l a (fun i hi => ?_)
      refine hmin i (List.mem_cons_of_mem _ hi) (fun he => ?_)
      subst he
      rcases hnd with h | h
      · exact h hi
      · exact (List.nodup_cons.mp h).1 hi
    · have hbl : b ∈ l := by
        rcases List.mem_cons.mp hb with h | h
        · exact absurd h.symm hab
        · exact h
      have hnd' : b ∉ l.tail ∨ l.Nodup := by
        rcases hnd with h | h
        · exact absurd hbl h
        · exact Or.inr (List.nodup_cons.mp h).2
      have hmin' : ∀ i ∈ l, i ≠ b → f b < f i :=
        fun i hi hne => hmin i (List.mem_cons_of_mem _ hi) hne
      have hba : f b < f a := hmin a (List.mem_cons_self a l) (fun h => hab h)
      split_ifs with h
      · exact ih b hbl hnd' hmin' a hba
      · exact ih b hbl hnd' hmin' j hj

theorem foldl_minStep_from_none (f : ℕ → ℚ) (l : List ℕ) (z b : ℕ) (hb : b ∈ l)
    (hnd : l.Nodup) (hmin : ∀ i ∈ l, i ≠ b → f b < f i) :
    l.foldl (minStep f) (z, none) = (b, some (f b)) := by
  cases l with
  | nil => exact absurd hb (List.not_mem_nil b)
  | cons a l =>
    rw [List.foldl_cons, minStep_none]
    rcases eq_or_ne a b with rfl | hab
    · exact foldl_minStep_stable f l a (fun i hi =>
        hmin i (List.mem_cons_of_mem _ hi)
          (fun he => (List.nodup_cons.mp hnd).1 (he ▸ hi)))
    · have hbl : b ∈ l := by
        rcases List.mem_cons.mp hb with h | h
        · exact absurd h.symm hab
        · exact h
      exact foldl_minStep_find f l b hbl (Or.inr (List.nodup_cons.mp hnd).2)
        (fun i hi hne => hmin i (List.mem_cons_of_mem _ hi) hne) a
        (hmin a (List.mem_cons_self a l) (fun h => hab h))

/-- The source scan returns the unique strict minimiser. -/
theorem loopMinIndex_eq (f : ℕ → ℚ) (b : ℕ) (hb : b < 8)
    (hmin : ∀ i, i < 8 → i ≠ b → f b < f i) : loopMinIndex f = b := by
  unfold loopMinIndex
  rw [foldl_minStep_from_none f (List.range 8) 0 b (List.mem_range.mpr hb)
    (List.nodup_range 8) (fun i hi => hmin i (List.mem_range.mp hi))]

/-! ### Locating the projector indices for a non-boundary heading -/

theorem angDist_big_arg (h : ℚ) (b : ℕ) :
    angDist (startAngleDeg h + b * bigSliceDeg + bigSliceDeg / 2) topAngle
      = |wrapPi2 (45 * b + 45 / 2 - h)| := by
  unfold angDist startAngleDeg topAngle bigSliceDeg sliceDeg
  congr 2
  ring

theorem angDist_small_arg (h : ℚ) (b j : ℕ) :
    angDist (startAngleDeg h + b * bigSliceDeg + j * sliceDeg + sliceDeg / 2) topAngle
      = |wrapPi2 (45 * b + 45 / 8 * j + 45 / 16 - h)| := by
  unfold angDist startAngleDeg topAngle bigSliceDeg sliceDeg
  congr 2
  ring

theorem currentBigIndex_eq (h : ℚ) (b : ℕ) (hb : b < 8) (r : ℚ)
    (hr : h = 45 * b + r) (hr0 : 0 < r) (hr1 : r < 45) :
    currentBigIndex h = b := by
  unfold currentBigIndex
  apply loopMinIndex_eq _ b hb
  intro i hi hne
  rw [angDist_big_arg h b, angDist_big_arg h i]
  have e1 : (45 * (b : ℚ) + 45 / 2 - h) = 45 / 2 - r := by rw [hr]; ring
  have e2 : (45 * (i : ℚ) + 45 / 2 - h)
      = 45 * (((i : ℤ) - (b : ℤ) : ℤ) : ℚ) + (45 / 2 - r) := by
    rw [hr]; push_cast; ring
  rw [e1, e2, wrapPi2_eq_self (45 / 2 - r) (by linarith) (by linarith)]
  refine lt_of_lt_of_le ?_ (sep_big ((i : ℤ) - (b : ℤ)) (by omega) (by omega)
    (by omega) (45 / 2 - r) (abs_lt.mpr ⟨by linarith, by linarith⟩))
  rw [abs_lt]
  exact ⟨by linarith, by linarith⟩

theorem currentSmallIndex_eq (h : ℚ) (b s : ℕ) (hs : s < 8)
    (hcur : currentBigIndex h = b) (u : ℚ)
    (hu : h = 45 * b + 45 / 8 * s + u) (hu0 : 0 < u) (hu1 : u < 45 / 8) :
    currentSmallIndex h = s := by
  unfold currentSmallIndex
  rw [hcur]
  apply loopMinIndex_eq _ s hs
  intro j hj hne
  rw [angDist_small_arg h b s, angDist_small_arg h b j]
  have e1 : (45 * (b : ℚ) + 45 / 8 * s + 45 / 16 - h) = 45 / 16 - u := by rw [hu]; ring
  have e2 : (45 * (b : ℚ) + 45 / 8 * j + 45 / 16 - h)
      = 45 / 8 * (((j : ℤ) - (s : ℤ) : ℤ) : ℚ) + (45 / 16 - u) := by
    rw [hu]; push_cast; ring
  rw [e1, e2, wrapPi2_eq_self (45 / 16 - u) (by linarith) (by linarith)]
  refine lt_of_lt_of_le ?_ (sep_small ((j : ℤ) - (s : ℤ)) (by omega) (by omega)
    (by omega) (45 / 16 - u) (abs_lt.mpr ⟨by linarith, by linarith⟩))
  rw [abs_lt]
  exact ⟨by linarith, by linarith⟩

/-! ### The interval-bucket lookups on the sector of a heading -/

theorem indexOf_seq_getD : ∀ b : ℕ, b < 8 → seq.indexOf (seq.getD b 0) = b := by decide

theorem bigLabels_getD_eq_seq_getD (b : ℕ) : bigLabels.getD b 0 = seq.getD b 0 := rfl

theorem bigLabelForDegree_eq (b : ℕ) (hb : b < 8) (h : ℚ)
    (h1 : 45 * b ≤ h) (h2 : h < 45 * (b + 1)) :
    bigLabelForDegree h = bigLabels.getD b 0 := by
  have hb7 : (b : ℚ) ≤ 7 := by exact_mod_cast Nat.lt_succ_iff.mp hb
  have hbQ : (0 : ℚ) ≤ (b : ℚ) := by positivity
  have h0 : 0 ≤ h := le_trans (by positivity) h1
  have h360 : h < 360 := lt_of_lt_of_le h2 (by linarith)
  unfold bigLabelForDegree
  dsimp only
  rw [doubleMod_eq_self h h0 h360]
  interval_cases b
  · norm_num at h1 h2
    rw [if_pos (by linarith)]
    rfl
  · norm_num at h1 h2
    rw [if_neg (by linarith), if_pos (by linarith)]
    rfl
  · norm_num at h1 h2
    rw [if_neg (by linarith), if_neg (by linarith), if_pos (by linarith)]
    rfl
  · norm_num at h1 h2
    rw [if_neg (by linarith), if_neg (by linarith), if_neg (by linarith),
      if_pos (by linarith)]
    rfl
  · norm_num at h1 h2
    rw [if_neg (by linarith), if_neg (by linarith), if_neg (by linarith),
      if_neg (by linarith), if_pos (by linarith)]
    rfl
  · norm_num at h1 h2
    rw [if_neg (by linarith), if_neg (by linarith), if_neg (by linarith),
      if_neg (by linarith), if_neg (by linarith), if_pos (by linarith)]
    rfl
  · norm_num at h1 h2
    rw [if_neg (by linarith), if_neg (by linarith), if_neg (by linarith),
      if_neg (by linarith), if_neg (by linarith), if_neg (by linarith),
      if_pos (by linarith)]
    rfl
  · norm_num at h1 h2
    rw [if_neg (by linarith), if_neg (by linarith), if_neg (by linarith),
      if_neg (by linarith), if_neg (by linarith), if_neg (by linarith),
      if_neg (by linarith)]
    rfl

theorem smallLabelForDegree_eq (b s : ℕ) (hb : b < 8) (hs : s < 8) (h : ℚ)
    (h1 : 45 * b + 45 / 8 * s ≤ h) (h2 : h < 45 * b + 45 / 8 * (s + 1)) :
    smallLabelForDegree h = seq.getD ((b + s) % 8) 0 := by
  have hb7 : (b : ℚ) ≤ 7 := by exact_mod_cast Nat.lt_succ_iff.mp hb
  have hs7 : (s : ℚ) ≤ 7 := by exact_mod_cast Nat.lt_succ_iff.mp hs
  have hbQ : (0 : ℚ) ≤ (b : ℚ) := by positivity
  have hsQ : (0 : ℚ) ≤ (s : ℚ) := by positivity
  have h0 : 0 ≤ h := le_trans (by positivity) h1
  have h360 : h < 360 := lt_of_lt_of_le h2 (by linarith)
  unfold smallLabelForDegree
  dsimp only
  rw [doubleMod_eq_self h h0 h360]
  have hfloor45 : ⌊h / 45⌋ = (b : ℤ) := by
    rw [Int.floor_eq_iff]
    constructor
    · push_cast
      rw [le_div_iff₀ (by norm_num)]
      linarith
    · push_cast
      rw [div_lt_iff₀ (by norm_num)]
      linarith
  rw [hfloor45]
  have hfloor8 : ⌊(h - (((b : ℕ) : ℤ) : ℚ) * 45) / (45 / 8)⌋ = (s : ℤ) := by
    rw [Int.floor_eq_iff]
    constructor
    · push_cast
      rw [le_div_iff₀ (by norm_num)]
      linarith
    · push_cast
      rw [div_lt_iff₀ (by norm_num)]
      linarith
  rw [hfloor8]
  have hmin : min (7 : ℤ) (s : ℤ) = (s : ℤ) :=
    min_eq_right (by exact_mod_cast Nat.lt_succ_iff.mp hs)
  rw [hmin, Int.toNat_natCast, Int.toNat_natCast,
    indexOf_seq_getD b hb]

/-! ### The smoothing loop on the scenario `displayed = 0`, `target = 170` -/

theorem animateTick_eq (x : ℚ) (hx0 : 0 ≤ x) (hx1 : x ≤ 170) :
    animateTick x 170 0 =
      if 5 / 100 < 170 - x then x + (170 - x) * (15 / 100)
      else if 0 < 170 - x then 170 else x := by
  unfold animateTick
  dsimp only
  rw [show (170 : ℚ) + 0 = 170 by norm_num,
    normalizeFin_eq_self 170 (by norm_num) (by norm_num),
    shortestAngleDelta_eq_of x 170 (by linarith) (by linarith),
    abs_of_nonneg (show (0 : ℚ) ≤ 170 - x by linarith),
    normalizeFin_eq_self (x + (170 - x) * (15 / 100)) (by linarith) (by linarith)]

theorem smoothSeq_succ (n : ℕ) : smoothSeq (n + 1) = animateTick (smoothSeq n) 170 0 := rfl

theorem smoothSeq_invariant (n : ℕ) : 0 ≤ smoothSeq n ∧ smoothSeq n ≤ 170 := by
  induction n with
  | zero => norm_num [smoothSeq]
  | succ n ih =>
    obtain ⟨h0, h1⟩ := ih
    rw [smoothSeq_succ, animateTick_eq _ h0 h1]
    split_ifs with ha hb <;> constructor <;> linarith

theorem smoothSeq_mono (n : ℕ) : smoothSeq n ≤ smoothSeq (n + 1) := by
  obtain ⟨h0, h1⟩ := smoothSeq_invariant n
  rw [smoothSeq_succ, animateTick_eq _ h0 h1]
  split_ifs with ha hb
  · linarith
  · linarith
  · exact le_refl _

theorem smoothSeq_snap (n : ℕ) (h : 170 - smoothSeq n ≤ 5 / 100) :
    smoothSeq (n + 1) = 170 := by
  obtain ⟨h0, h1⟩ := smoothSeq_invariant n
  rw [smoothSeq_succ, animateTick_eq _ h0 h1]
  split_ifs with ha hb
  · linarith
  · rfl
  · linarith

theorem smoothSeq_gap (n : ℕ) : 170 - smoothSeq n ≤ 170 * (17 / 20) ^ n := by
  induction n with
  | zero => norm_num [smoothSeq]
  | succ n ih =>
    obtain ⟨h0, h1⟩ := smoothSeq_invariant n
    have hpos : (0 : ℚ) ≤ 170 * (17 / 20) ^ (n + 1) := by positivity
    rw [smoothSeq_succ, animateTick_eq _ h0 h1]
    split_ifs with ha hb
    · have hstep : 170 - (smoothSeq n + (170 - smoothSeq n) * (15 / 100))
          = (17 / 20) * (170 - smoothSeq n) := by ring
      rw [hstep, pow_succ]
      calc (17 / 20) * (170 - smoothSeq n) ≤ (17 / 20) * (170 * (17 / 20) ^ n) :=
        mul_le_mul_of_nonneg_left ih (by norm_num)
      _ = 170 * ((17 / 20) ^ n * (17 / 20)) := by ring
    · linarith
    · linarith

theorem smoothSeq_stays (n : ℕ) (h : smoothSeq n = 170) : smoothSeq (n + 1) = 170 := by
  rw [smoothSeq_succ, h, animateTick_eq 170 (by norm_num) (by norm_num)]
  norm_num

/-! ### Claim theorems -/

/-- C2 counterexample: the claim that `shortestSignedDelta` always lies in
the half-open interval `(-180, 180]` fails at the concrete input
`from = 0`, `to = -180`, where the JS remainder keeps the sign of the
dividend and the result is exactly `-180`. -/
theorem C2_counterexample :
    ¬(-180 < shortestAngleDelta 0 (-180) ∧ shortestAngleDelta 0 (-180) ≤ 180) := by
  have h : shortestAngleDelta 0 (-180) = -180 := by
    norm_num [shortestAngleDelta, jsMod, ratTrunc]
  rw [h]
  norm_num

/-- C2 (amended): for every pair of numbers, `shortestAngleDelta` lies in
the closed interval `[-180, 180]`; the left endpoint `-180` is attained
(for example at `from = 0`, `to = -180`), so the interval cannot be taken
half-open on the left. -/
theorem C2_amended_range (a b : ℚ) :
    -180 ≤ shortestAngleDelta a b ∧ shortestAngleDelta a b ≤ 180 :=
  shortestAngleDelta_mem a b

/-- C3 counterexample: `normalize` tests `Number.isNaN`, not
`Number.isFinite`, so the non-finite number `Infinity` is not mapped to the
`null` sentinel: it flows through `%` and comes out as `NaN`. -/
theorem C3_counterexample :
    normalize JSVal.posInf = some JSVal.nan ∧ normalize JSVal.posInf ≠ none := by
  constructor
  · rfl
  · intro h
    exact Option.noConfusion h

/-- C3 (amended): `normalize` returns the `null` sentinel exactly when the
input is not a number or is `NaN`; the non-finite numbers `±Infinity`
instead produce a `NaN` result; and on every finite number the result is
the input reduced modulo 360 into `[0, 360)` (hence congruent to the input
modulo 360). -/
theorem C3_amended_normalize :
    (∀ v : JSVal, normalize v = none ↔ (v = JSVal.undef ∨ v = JSVal.nan)) ∧
    normalize JSVal.posInf = some JSVal.nan ∧
    normalize JSVal.negInf = some JSVal.nan ∧
    ∀ q : ℚ, normalize (JSVal.num q) = some (JSVal.num (normalizeFin q)) ∧
      0 ≤ normalizeFin q ∧ normalizeFin q < 360 ∧
      ∃ k : ℤ, normalizeFin q = q + 360 * k := by
  refine ⟨?_, rfl, rfl, ?_⟩
  · intro v
    cases v <;> simp [normalize]
  · intro q
    have he : normalize (JSVal.num q) = some (JSVal.num (normalizeFin q)) := by
      unfold normalize jsRem360 jsLtZero jsAdd360 normalizeFin
      by_cases hq : jsMod q 360 < 0 <;> simp [hq]
    exact ⟨he, normalizeFin_nonneg q, normalizeFin_lt q, normalizeFin_exists_int q⟩

/-- C4: inside every big sector `b`, the 8 drawn sub-slice labels are, in
clockwise order, exactly the fixed sequence rotated to start at the index
of the big-sector label `bigLabels[b]` (so the first drawn sub-label equals
the big label), and in particular the big sector labeled 7 (index 5, bucket
`[225, 270)`) carries the sub-sequence `[7, 5, 8, 6, 1, 2, 3, 4]`. -/
theorem C4_label_sequence_invariant :
    (∀ b : ℕ, b < 8 →
      drawnSubLabels b = seq.rotate (seq.indexOf (bigLabels.getD b 0)) ∧
      (drawnSubLabels b).getD 0 0 = bigLabels.getD b 0) ∧
    drawnSubLabels 5 = [7, 5, 8, 6, 1, 2, 3, 4] := by
  constructor
  · decide
  · decide

/-- C4 witness: the invariant instantiated at the big sector with label 7
(index 5). -/
theorem C4_witness :
    drawnSubLabels 5 = seq.rotate (seq.indexOf (bigLabels.getD 5 0)) ∧
    (drawnSubLabels 5).getD 0 0 = bigLabels.getD 5 0 :=
  C4_label_sequence_invariant.1 5 (by norm_num)

/-- C6: advancing a heading by the shortest signed delta lands exactly on
the target modulo 360: `normalize(from + shortestAngleDelta(from, to))`
equals `normalize(to)` for all finite numbers. -/
theorem C6_delta_lands_on_target (a b : ℚ) :
    normalizeFin (a + shortestAngleDelta a b) = normalizeFin b := by
  obtain ⟨k, hk⟩ := shortestAngleDelta_exists_int a b
  exact normalizeFin_congr _ _ k (by rw [hk]; ring)

/-- C5: starting from `displayed = 0` with constant target `170`, gain
`0.15` and snap threshold `0.05`, the displayed-heading sequence is
monotonically increasing, never passes beyond 170, snaps to exactly 170 as
soon as the remaining delta is within the snap threshold, and from some
tick on it equals 170 exactly. -/
theorem C5_smoothing_convergence :
    (∀ n : ℕ, smoothSeq n ≤ smoothSeq (n + 1)) ∧
    (∀ n : ℕ, smoothSeq n ≤ 170) ∧
    (∀ n : ℕ, 170 - smoothSeq n ≤ 5 / 100 → smoothSeq (n + 1) = 170) ∧
    ∃ N : ℕ, ∀ m : ℕ, N ≤ m → smoothSeq m = 170 := by
  refine ⟨smoothSeq_mono, fun n => (smoothSeq_invariant n).2, smoothSeq_snap, ?_⟩
  obtain ⟨N, hN⟩ : ∃ N : ℕ, (17 / 20 : ℚ) ^ N < 1 / 3400 :=
    exists_pow_lt_of_lt_one (by norm_num) (by norm_num)
  have hBase : smoothSeq (N + 1) = 170 := by
    apply smoothSeq_snap
    have := smoothSeq_gap N
    nlinarith
  refine ⟨N + 1, fun m hm => ?_⟩
  obtain ⟨d, rfl⟩ := Nat.exists_eq_add_of_le hm
  induction d with
  | zero => exact hBase
  | succ d ih => exact Nat.add_succ (N + 1) d ▸ smoothSeq_stays _ (ih (by omega))

set_option maxRecDepth 100000 in
/-- C5 witness: at tick 51 the remaining delta is within the snap
threshold, and the theorem then forces tick 52 to be exactly 170. -/
theorem C5_witness : 170 - smoothSeq 51 ≤ 5 / 100 ∧ smoothSeq 52 = 170 := by
  have h : 170 - smoothSeq 51 ≤ 5 / 100 := by
    norm_num [smoothSeq, animateTick, normalizeFin, shortestAngleDelta, jsMod,
      ratTrunc, abs]
  exact ⟨h, C5_smoothing_convergence.2.2.1 51 h⟩

/-- C9: a sensor sample with no finite native compass heading and no
finite alpha fails every recognized shape and is discarded with no state
change, on both the iOS and the non-iOS path of the part_000 handler. -/
theorem C9_malformed_sample_discarded (trig : ℚ → ℚ → ℚ → ℚ) (ios : Bool)
    (ev : OrientationEvent) (s : SensorState)
    (hw : ev.webkitCompassHeading.isFiniteNumber = false)
    (ha : ev.alpha.isFiniteNumber = false) :
    sensorHandler trig ios ev s = s := by
  obtain ⟨w, al, be, ga⟩ := ev
  cases w
  case num q => simp [JSVal.isFiniteNumber] at hw
  all_goals cases al <;>
    first
      | (cases ios <;> rfl)
      | simp [JSVal.isFiniteNumber] at ha

/-- C9 witness: a concrete malformed sample (non-number native field,
`NaN` alpha) leaves a concrete state untouched. -/
theorem C9_witness :
    sensorHandler (fun _ _ _ => 0) false
      ⟨JSVal.undef, JSVal.nan, JSVal.undef, JSVal.undef⟩ ⟨123, false⟩
      = ⟨123, false⟩ :=
  C9_malformed_sample_discarded (fun _ _ _ => 0) false _ _ rfl rfl

/-- C8: in the preferWebkitRef variant of the handler, a sample with a
finite native compass heading drives the target and latches the
native-preferred flag; the flag, once true, is preserved by every sample
(including across any event list), and while it is true a sample without a
finite native heading leaves the state completely unchanged, so
Euler-derived estimates no longer drive the target heading. -/
theorem C8_native_preferred (trig : ℚ → ℚ → ℚ → ℚ) :
    (∀ (ev : OrientationEvent) (s : SensorState) (q : ℚ),
      ev.webkitCompassHeading = JSVal.num q →
      sensorHandlerPrefer trig ev s = ⟨normalizeFin q, true⟩) ∧
    (∀ (ev : OrientationEvent) (s : SensorState), s.prefer = true →
      (sensorHandlerPrefer trig ev s).prefer = true) ∧
    (∀ (evs : List OrientationEvent) (s : SensorState), s.prefer = true →
      (evs.foldl (fun st e => sensorHandlerPrefer trig e st) s).prefer = true) ∧
    (∀ (ev : OrientationEvent) (s : SensorState), s.prefer = true →
      ev.webkitCompassHeading.isFiniteNumber = false →
      sensorHandlerPrefer trig ev s = s) := by
  have hset : ∀ (ev : OrientationEvent) (s : SensorState) (q : ℚ),
      ev.webkitCompassHeading = JSVal.num q →
      sensorHandlerPrefer trig ev s = ⟨normalizeFin q, true⟩ := by
    intro ev s q hq
    obtain ⟨w, al, be, ga⟩ := ev
    obtain ⟨st, sp⟩ := s
    cases hq
    rfl
  have hkeep : ∀ (ev : OrientationEvent) (s : SensorState), s.prefer = true →
      (sensorHandlerPrefer trig ev s).prefer = true := by
    intro ev s hp
    obtain ⟨w, al, be, ga⟩ := ev
    obtain ⟨st, sp⟩ := s
    cases hp
    cases w <;> rfl
  have hfold : ∀ (evs : List OrientationEvent) (s : SensorState), s.prefer = true →
      (evs.foldl (fun st e => sensorHandlerPrefer trig e st) s).prefer = true := by
    intro evs
    induction evs with
    | nil => intro s hp; exact hp
    | cons e evs ih =>
      intro s hp
      rw [List.foldl_cons]
      exact ih _ (hkeep e s hp)
  have hnochange : ∀ (ev : OrientationEvent) (s : SensorState), s.prefer = true →
      ev.webkitCompassHeading.isFiniteNumber = false →
      sensorHandlerPrefer trig ev s = s := by
    intro ev s hp hw
    obtain ⟨w, al, be, ga⟩ := ev
    obtain ⟨st, sp⟩ := s
    cases hp
    cases w
    case num q => simp [JSVal.isFiniteNumber] at hw
    all_goals rfl
  exact ⟨hset, hkeep, hfold, hnochange⟩

/-- C8 witness: a webkit sample sets target 200 and latches the flag; a
subsequent Euler-only sample changes nothing. -/
theorem C8_witness :
    sensorHandlerPrefer (fun _ _ _ => 0)
      ⟨JSVal.num 200, JSVal.num 10, JSVal.num 0, JSVal.num 0⟩ ⟨0, false⟩
      = ⟨normalizeFin 200, true⟩ ∧
    sensorHandlerPrefer (fun _ _ _ => 0)
      ⟨JSVal.undef, JSVal.num 90, JSVal.num 0, JSVal.num 0⟩ ⟨200, true⟩
      = ⟨200, true⟩ :=
  ⟨(C8_native_preferred (fun _ _ _ => 0)).1 _ _ 200 rfl,
    (C8_native_preferred (fun _ _ _ => 0)).2.2.2 _ _ rfl rfl⟩

/-- C7: the two shared scalars start inside `[0, 360)` and stay inside it:
every handler invocation (both handler variants, any platform flag, any
sample, any tilt-compensation result) keeps the target heading in
`[0, 360)`, and every smoothing tick keeps the displayed heading in
`[0, 360)`. -/
theorem C7_headings_stay_normalized :
    (0 ≤ initialTarget ∧ initialTarget < 360 ∧
      0 ≤ initialDisplayed ∧ initialDisplayed < 360) ∧
    (∀ (trig : ℚ → ℚ → ℚ → ℚ) (ios : Bool) (ev : OrientationEvent) (s : SensorState),
      0 ≤ s.target → s.target < 360 →
      0 ≤ (sensorHandler trig ios ev s).target ∧
        (sensorHandler trig ios ev s).target < 360) ∧
    (∀ (trig : ℚ → ℚ → ℚ → ℚ) (ev : OrientationEvent) (s : SensorState),
      0 ≤ s.target → s.target < 360 →
      0 ≤ (sensorHandlerPrefer trig ev s).target ∧
        (sensorHandlerPrefer trig ev s).target < 360) ∧
    (∀ current targetStored offsetDeg : ℚ, 0 ≤ current → current < 360 →
      0 ≤ animateTick current targetStored offsetDeg ∧
        animateTick current targetStored offsetDeg < 360) := by
  refine ⟨by norm_num [initialTarget, initialDisplayed], ?_, ?_, ?_⟩
  · intro trig ios ev s h1 h2
    rcases hc : sensorCandidate trig ios ev with _ | q
    · have ht : (sensorHandler trig ios ev s).target = s.target := by
        simp only [sensorHandler, hc]
      rw [ht]
      exact ⟨h1, h2⟩
    · have ht : (sensorHandler trig ios ev s).target = normalizeFin q := by
        simp only [sensorHandler, hc]
      rw [ht]
      exact ⟨normalizeFin_nonneg q, normalizeFin_lt q⟩
  · intro trig ev s h1 h2
    rcases hc : sensorPreferCandidate trig ev s.prefer with _ | q
    · have ht : (sensorHandlerPrefer trig ev s).target = s.target := by
        simp only [sensorHandlerPrefer, hc]
      rw [ht]
      exact ⟨h1, h2⟩
    · have ht : (sensorHandlerPrefer trig ev s).target = normalizeFin q := by
        simp only [sensorHandlerPrefer, hc]
      rw [ht]
      exact ⟨normalizeFin_nonneg q, normalizeFin_lt q⟩
  · intro current targetStored offsetDeg h1 h2
    unfold animateTick
    dsimp only
    split_ifs <;>
      first
        | exact ⟨h1, h2⟩
        | exact ⟨normalizeFin_nonneg _, normalizeFin_lt _⟩

/-- C7 witness: a concrete handler call and a concrete tick, both started
from in-range values, land in `[0, 360)`. -/
theorem C7_witness :
    (0 ≤ (sensorHandler (fun _ _ _ => 0) false
        ⟨JSVal.num 500, JSVal.undef, JSVal.undef, JSVal.undef⟩ ⟨10, false⟩).target ∧
      (sensorHandler (fun _ _ _ => 0) false
        ⟨JSVal.num 500, JSVal.undef, JSVal.undef, JSVal.undef⟩ ⟨10, false⟩).target < 360) ∧
    (0 ≤ animateTick 10 500 25 ∧ animateTick 10 500 25 < 360) :=
  ⟨C7_headings_stay_normalized.2.1 (fun _ _ _ => 0) false _ _ (by norm_num) (by norm_num),
    C7_headings_stay_normalized.2.2.2 10 500 25 (by norm_num) (by norm_num)⟩

/-- C1 counterexample: at displayed heading exactly 45.0 the two candidate
big-sector midpoints are equidistant from the forward ray, the strict `<`
comparison keeps the first index, and the resolved big label stays 6 - it
does not flip to 1 as the claim states. -/
theorem C1_counterexample : currentBigLabel 45 = 6 ∧ currentBigLabel 45 ≠ 1 := by
  have h : currentBigLabel 45 = 6 := by
    norm_num [currentBigLabel, currentBigIndex, loopMinIndex, minStep, angDist,
      wrapPi2, jsMod, ratTrunc, startAngleDeg, topAngle, bigSliceDeg, sliceDeg,
      List.range_succ, seq, bigLabels, abs, List.getD]
  exact ⟨h, by rw [h]; norm_num⟩

set_option maxHeartbeats 2000000 in
/-- C1 (amended): at heading 0 the forward index resolves to big label 6
with sub-slice index 0 and small label 6; at heading 44.9 it still resolves
to big label 6 with sub-slice index exactly 7; at heading exactly 45.0 the
big label remains 6 because the nearest-midpoint tie is broken toward the
lower index, and the flip to big label 1 happens only strictly past 45
(for example at 45.1). -/
theorem C1_amended_boundary_scenario :
    currentBigLabel 0 = 6 ∧ currentSmallIndex 0 = 0 ∧ currentSmallLabel 0 = 6 ∧
    currentBigLabel (449 / 10) = 6 ∧ currentSmallIndex (449 / 10) = 7 ∧
    currentBigLabel 45 = 6 ∧ currentBigLabel (451 / 10) = 1 := by
  refine ⟨?_, ?_, ?_, ?_, ?_, ?_, ?_⟩ <;>
    norm_num [currentSmallLabel, currentSmallIndex, currentBigLabel,
      currentBigIndex, loopMinIndex, minStep, angDist, wrapPi2, jsMod, ratTrunc,
      startAngleDeg, topAngle, bigSliceDeg, sliceDeg, List.range_succ, seq,
      bigLabels, abs, List.getD, List.indexOf, List.findIdx_cons]

/-- C10 counterexample: at the in-range heading 45 the nearest-midpoint
projector keeps big label 6 (first-index tie-break) while the interval
buckets report big label 1, so the two computations disagree. -/
theorem C10_counterexample :
    ((0 : ℚ) ≤ 45 ∧ (45 : ℚ) < 360) ∧
    ¬(currentBigLabel 45 = bigLabelForDegree 45 ∧
      currentSmallLabel 45 = smallLabelForDegree 45) := by
  refine ⟨by norm_num, ?_⟩
  have h1 : currentBigLabel 45 = 6 := by
    norm_num [currentBigLabel, currentBigIndex, loopMinIndex, minStep, angDist,
      wrapPi2, jsMod, ratTrunc, startAngleDeg, topAngle, bigSliceDeg, sliceDeg,
      List.range_succ, seq, bigLabels, abs, List.getD]
  have h2 : bigLabelForDegree 45 = 1 := by
    norm_num [bigLabelForDegree, jsMod, ratTrunc]
  intro hcontra
  rw [h1, h2] at hcontra
  exact absurd hcontra.1 (by norm_num)

/-- C10 (amended): for every heading in `[0, 360)` that is not a positive
integer multiple of the slice width `5.625 = 45/8` degrees, the (big label,
small label) pair selected by the nearest-midpoint search over the rotated
dial equals the pair computed by the interval-bucket functions
`bigLabelForDegree` and `smallLabelForDegree`.  (At positive multiples of
the slice width the first-index tie-break selects the preceding slice
while the buckets open a new one, as the counterexample at 45 shows.) -/
theorem C10_amended_projector_matches_buckets (h : ℚ) (h0 : 0 ≤ h)
    (h360 : h < 360) (hnb : ¬∃ k : ℤ, 0 < k ∧ h = 45 / 8 * k) :
    currentBigLabel h = bigLabelForDegree h ∧
    currentSmallLabel h = smallLabelForDegree h := by
  rcases eq_or_lt_of_le h0 with hz | hpos
  · rw [← hz]
    have e1 : currentBigLabel 0 = 6 := by
      norm_num [currentBigLabel, currentBigIndex, loopMinIndex, minStep, angDist,
        wrapPi2, jsMod, ratTrunc, startAngleDeg, topAngle, bigSliceDeg, sliceDeg,
        List.range_succ, seq, bigLabels, abs, List.getD]
    have e2 : currentSmallLabel 0 = 6 := by
      norm_num [currentSmallLabel, currentSmallIndex, currentBigLabel,
        currentBigIndex, loopMinIndex, minStep, angDist, wrapPi2, jsMod, ratTrunc,
        startAngleDeg, topAngle, bigSliceDeg, sliceDeg, List.range_succ, seq,
        bigLabels, abs, List.getD, List.indexOf, List.findIdx_cons]
    have e3 : bigLabelForDegree 0 = 6 := by
      norm_num [bigLabelForDegree, jsMod, ratTrunc]
    have e4 : smallLabelForDegree 0 = 6 := by
      norm_num [smallLabelForDegree, jsMod, ratTrunc, seq, List.getD,
        List.indexOf, List.findIdx_cons, Int.toNat]
    rw [e1, e2, e3, e4]
    exact ⟨rfl, rfl⟩
  · have hk0 : (0 : ℤ) ≤ ⌊h / (45 / 8)⌋ := Int.floor_nonneg.mpr (by positivity)
    set kz := ⌊h / (45 / 8)⌋ with hkzdef
    set k : ℕ := kz.toNat with hkdef
    have hkz : (k : ℤ) = kz := Int.toNat_of_nonneg hk0
    have hcast : ((kz : ℤ) : ℚ) = (k : ℚ) := by exact_mod_cast hkz.symm
    have hlow : 45 / 8 * (k : ℚ) ≤ h := by
      have h1 : ((kz : ℤ) : ℚ) ≤ h / (45 / 8) := by
        rw [hkzdef]
        exact Int.floor_le _
      rw [hcast, le_div_iff₀ (by norm_num)] at h1
      linarith
    have hhigh : h < 45 / 8 * ((k : ℚ) + 1) := by
      have h1 : h / (45 / 8) < ((kz : ℤ) : ℚ) + 1 := by
        rw [hkzdef]
        exact Int.lt_floor_add_one _
      rw [hcast, div_lt_iff₀ (by norm_num)] at h1
      linarith
    have hklt : k < 64 := by
      have h1 : h / (45 / 8) < ((64 : ℤ) : ℚ) := by
        rw [div_lt_iff₀ (by norm_num)]
        push_cast
        linarith
      have h2 : kz < 64 := by
        rw [hkzdef]
        exact Int.floor_lt.mpr h1
      omega
    have hne : 45 / 8 * (k : ℚ) ≠ h := by
      intro he
      rcases Nat.eq_zero_or_pos k with hk0' | hkpos
      · rw [hk0'] at he
        push_cast at he
        linarith
      · exact hnb ⟨(k : ℤ), by exact_mod_cast hkpos, by rw [← he]; push_cast; ring⟩
    have hlow' : 45 / 8 * (k : ℚ) < h := lt_of_le_of_ne hlow hne
    set b : ℕ := k / 8 with hbdef
    set s : ℕ := k % 8 with hsdef
    have hb : b < 8 := by omega
    have hs : s < 8 := by omega
    have hks : k = 8 * b + s := by omega
    have hkQ : (k : ℚ) = 8 * (b : ℚ) + (s : ℚ) := by exact_mod_cast hks
    have hbQ : (0 : ℚ) ≤ (b : ℚ) := by positivity
    have hsQ : (0 : ℚ) ≤ (s : ℚ) := by positivity
    have hsQ7 : (s : ℚ) ≤ 7 := by exact_mod_cast Nat.lt_succ_iff.mp hs
    have hbQ7 : (b : ℚ) ≤ 7 := by exact_mod_cast Nat.lt_succ_iff.mp hb
    have hu0 : 0 < h - 45 * (b : ℚ) - 45 / 8 * (s : ℚ) := by
      rw [hkQ] at hlow'
      linarith
    have hu1 : h - 45 * (b : ℚ) - 45 / 8 * (s : ℚ) < 45 / 8 := by
      rw [hkQ] at hhigh
      linarith
    have hcurB : currentBigIndex h = b :=
      currentBigIndex_eq h b hb (h - 45 * b) (by ring) (by linarith) (by linarith)
    have hcurS : currentSmallIndex h = s :=
      currentSmallIndex_eq h b s hs hcurB (h - 45 * b - 45 / 8 * s) (by ring) hu0 hu1
    have hBL : currentBigLabel h = bigLabels.getD b 0 := by
      unfold currentBigLabel
      rw [hcurB]
    constructor
    · rw [hBL]
      exact (bigLabelForDegree_eq b hb h (by linarith) (by linarith)).symm
    · unfold currentSmallLabel
      rw [hcurS, hBL, bigLabels_getD_eq_seq_getD, indexOf_seq_getD b hb]
      exact (smallLabelForDegree_eq b s hb hs h (by linarith) (by linarith)).symm

/-- C10 witness: at the non-boundary heading 10 both computations agree. -/
theorem C10_witness :
    ((0 : ℚ) ≤ 10 ∧ (10 : ℚ) < 360 ∧ ¬∃ k : ℤ, 0 < k ∧ (10 : ℚ) = 45 / 8 * k) ∧
    currentBigLabel 10 = bigLabelForDegree 10 ∧
    currentSmallLabel 10 = smallLabelForDegree 10 := by
  have hnb : ¬∃ k : ℤ, 0 < k ∧ (10 : ℚ) = 45 / 8 * k := by
    rintro ⟨k, hk, he⟩
    have h8 : (80 : ℚ) = 45 * (k : ℚ) := by linarith
    have h8' : (80 : ℤ) = 45 * k := by exact_mod_cast h8
    omega
  exact ⟨⟨by norm_num, by norm_num, hnb⟩,
    C10_amended_projector_matches_buckets 10 (by norm_num) (by norm_num) hnb⟩

end Compass
